import Mathlib

/-!
Verification development for `milk/supervised/tree.py` (decision tree
classifier).

The embedding models the source as follows:

* feature matrices are `List Row` with `Row := List ℚ` (N rows of rational
  feature values; numpy floats are modelled by `ℚ`, real comparisons by the
  rational order);
* `features[:, i]` (a column) is `col features i`, reading entry `i` of each
  row with `List.getD` (default `0`, matching a rectangular matrix on all
  in-range accesses);
* boolean masks `features[:, i] < d` are `maskLt`, mask application
  `labels[mask]` is `applyMask`, `~mask` is `notMask`;
* `sorted(set(column))` is `sortedDistinct` (insertion sort of `List.dedup`);
* the split criterion is a function value, polymorphic in an ordered-field
  score type `V` (the Python code only compares scores with `>` against the
  running best, initialised to `-1.`); the optional weight arguments of the
  Python call are modelled with `Option` parameters;
* the injected source of randomness `R` is modelled as a function from the
  node's root-to-node path (list of left/right choices) to the list of
  column indices drawn by `R.sample` at that node, so that every node can
  receive an independent draw;
* the recursion of `build_tree.recursive` is modelled with explicit fuel
  (`recursiveF`); `build_tree` runs it with fuel `labels.length + 1`, which
  is proved sufficient (`recursiveF_stable`), and returns `Except` to model
  the `assert` / `ValueError` input validation.
-/

namespace MilkTree

/-- A sample's feature vector: one row of the feature matrix. -/
abbrev Row : Type := List ℚ

/-- Tree node: `Leaf(v, w)` or `Node(featid, featval, left, right)`,
mirroring the two Python classes `Leaf` and `Node`. -/
inductive Tree where
  | Leaf (v : ℚ) (w : ℚ)
  | Node (featid : Nat) (featval : ℚ) (left : Tree) (right : Tree)
deriving DecidableEq

/-- Column `i` of the feature matrix: `features[:, i]`. -/
def col (features : List Row) (i : Nat) : List ℚ :=
  features.map fun r => r.getD i 0

/-- Number of feature columns: `features.shape[1]` (width of the first row
for a rectangular matrix). -/
def width (features : List Row) : Nat := (features.headD []).length

/-- The boolean mask `features[:, i] < d`. -/
def maskLt (features : List Row) (i : Nat) (d : ℚ) : List Bool :=
  features.map fun r => decide (r.getD i 0 < d)

/-- Mask negation `~mask`. -/
def notMask (m : List Bool) : List Bool := m.map (!·)

/-- Boolean-mask indexing `xs[mask]`: keep the entries whose mask bit is
`true`. -/
def applyMask : List Bool → List α → List α
  | [], _ => []
  | _, [] => []
  | true :: m, x :: l => x :: applyMask m l
  | false :: m, _ :: l => applyMask m l

/-- The Python `sorted(set(c))`: distinct values of a column in increasing
order. -/
def sortedDistinct (c : List ℚ) : List ℚ :=
  List.insertionSort (· ≤ ·) c.dedup

/-- A split criterion: receives the two label partitions and, when a weight
vector was supplied to `_split`, the two weight partitions (`none`
otherwise, modelling the Python optional arguments).  Scores live in an
arbitrary linearly ordered field `V`; the code only compares them with `>`
against the running best, initialised to `-1.`. -/
abbrev Criterion (V : Type) : Type :=
  List ℚ → List ℚ → Option (List ℚ) → Option (List ℚ) → V

/-- The criterion value of the candidate split `c = (i, d)`:
`criterion(labels[features[:,i] < d], labels[~(features[:,i] < d)], ...)`,
passing the matching weight partitions when weights are present. -/
def scoreOf {V : Type} (features : List Row) (labels : List ℚ)
    (weights : Option (List ℚ)) (criterion : Criterion V) (c : Nat × ℚ) : V :=
  match weights with
  | some w =>
      criterion (applyMask (maskLt features c.1 c.2) labels)
        (applyMask (notMask (maskLt features c.1 c.2)) labels)
        (some (applyMask (maskLt features c.1 c.2) w))
        (some (applyMask (notMask (maskLt features c.1 c.2)) w))
  | none =>
      criterion (applyMask (maskLt features c.1 c.2) labels)
        (applyMask (notMask (maskLt features c.1 c.2)) labels)
        none none

/-- The feature matrix the `_split` loop actually iterates over:
`features[:, samples]` when subsampling, `features` itself otherwise. -/
def effFeatures (subsample : Option Int) (samples : List Nat)
    (features : List Row) : List Row :=
  match subsample with
  | none => features
  | some _ => features.map fun r => samples.map fun j => r.getD j 0

/-- The loop bound `f` of `_split`: `subsample` when subsampling (the code
sets `f = subsample`), the full width otherwise. -/
def effF (subsample : Option Int) (features : List Row) : Nat :=
  match subsample with
  | none => width features
  | some k => k.toNat

/-- The translation `ti = samples[i]` applied to a winning candidate when
subsampling (`ti = i` otherwise). -/
def remapIdx (subsample : Option Int) (samples : List Nat)
    (c : Nat × ℚ) : Nat × ℚ :=
  match subsample with
  | none => c
  | some _ => (samples.getD c.1 0, c.2)

/-- The candidate `(i, d)` pairs enumerated by the two nested loops of
`_split`, in loop order: features `i` in increasing order, and for each,
the distinct values of column `i` except the smallest (`domain_i[1:]`) in
increasing order. -/
def splitCandidates (features : List Row) (f : Nat) : List (Nat × ℚ) :=
  (List.range f).flatMap fun i =>
    ((sortedDistinct (col features i)).drop 1).map fun d => (i, d)

/-- One iteration of the `_split` loop body: replace the running best
exactly when the candidate's score is strictly greater than `best_val`. -/
def bestStep {V : Type} [LinearOrderedField V] (score : Nat × ℚ → V)
    (remap : Nat × ℚ → Nat × ℚ) (st : Option (Nat × ℚ) × V)
    (c : Nat × ℚ) : Option (Nat × ℚ) × V :=
  if score c > st.2 then (some (remap c), score c) else st

/-- The splitter `_split(features, labels, weights, criterion, subsample, R)`.
`samples` is the list of column indices drawn by `R.sample` for this call
(unused when `subsample` is `none`).  Starting from `best = None`,
`best_val = -1.`, it folds the loop body over all candidates and returns the
final `best`. -/
def _split {V : Type} [LinearOrderedField V] (features : List Row)
    (labels : List ℚ) (weights : Option (List ℚ)) (criterion : Criterion V)
    (subsample : Option Int) (samples : List Nat) : Option (Nat × ℚ) :=
  ((splitCandidates (effFeatures subsample samples features)
        (effF subsample features)).foldl
      (bestStep
        (scoreOf (effFeatures subsample samples features) labels weights
          criterion)
        (remapIdx subsample samples))
      (none, -1)).1

/-- The recursive body of `build_tree`, with explicit fuel.  `path` records
the left/right choices from the root so that `R` can supply an independent
draw of column indices for every node. -/
def recursiveF {V : Type} [LinearOrderedField V] (criterion : Criterion V)
    (min_split : Nat) (weights : Option (List ℚ)) (subsample : Option Int)
    (R : List Bool → List Nat) :
    Nat → List Bool → List Row → List ℚ → Option Tree
  | 0, _, _, _ => none
  | fuel + 1, path, features, labels =>
    if labels.length < min_split then
      some (Tree.Leaf (labels.sum / (labels.length : ℚ)) (labels.length : ℚ))
    else
      match _split features labels weights criterion subsample (R path) with
      | none =>
          some (Tree.Leaf (labels.sum / (labels.length : ℚ))
            (labels.length : ℚ))
      | some (i, thresh) =>
          match
            recursiveF criterion min_split weights subsample R fuel
              (path ++ [false]) (applyMask (maskLt features i thresh) features)
              (applyMask (maskLt features i thresh) labels),
            recursiveF criterion min_split weights subsample R fuel
              (path ++ [true])
              (applyMask (notMask (maskLt features i thresh)) features)
              (applyMask (notMask (maskLt features i thresh)) labels) with
          | some left, some right => some (Tree.Node i thresh left right)
          | _, _ => none

/-- The `subsample <= 0` validation test of `build_tree` (only performed
when `subsample` is explicitly provided). -/
def badSubsample : Option Int → Bool
  | some s => decide (s ≤ 0)
  | none => false

/-- `build_tree(features, labels, criterion, min_split, subsample, R,
weights)`.  The `assert len(features) == len(labels)` and the
`ValueError` on `subsample <= 0` are modelled as `Except.error`; otherwise
the recursion is run with fuel `labels.length + 1` (proved sufficient
below). -/
def build_tree {V : Type} [LinearOrderedField V] (features : List Row)
    (labels : List ℚ) (criterion : Criterion V) (min_split : Nat)
    (subsample : Option Int) (R : List Bool → List Nat)
    (weights : Option (List ℚ)) : Except String Tree :=
  if features.length ≠ labels.length then
    Except.error "build_tree: Nr of labels does not match nr of features"
  else if badSubsample subsample then
    Except.error "milk.supervised.tree.build_tree: subsample must be > 0."
  else
    match recursiveF criterion min_split weights subsample R
        (labels.length + 1) [] features labels with
    | some t => Except.ok t
    | none => Except.error "internal: fuel exhausted"

/-- `apply_tree(tree, features)`: walk from the root, descending left on a
strictly-smaller feature value, and return the reached leaf's value. -/
def apply_tree : Tree → List ℚ → ℚ
  | Tree.Leaf v _, _ => v
  | Tree.Node i t l r, feats =>
      if feats.getD i 0 < t then apply_tree l feats else apply_tree r feats

/-- Result of `tree_model.apply`: a thresholded boolean label or the raw
leaf value (the Python method returns one or the other depending on
`return_label`). -/
inductive ApplyResult where
  | label (b : Bool)
  | value (v : ℚ)
deriving DecidableEq

/-- The trained model: a tree plus the `return_label` flag. -/
structure tree_model where
  tree : Tree
  return_label : Bool

/-- `tree_model.apply(feats)`: `value > .5` as a boolean when
`return_label`, the raw value otherwise. -/
def tree_model.apply (m : tree_model) (feats : List ℚ) : ApplyResult :=
  if m.return_label then ApplyResult.label (decide (apply_tree m.tree feats > 1/2))
  else ApplyResult.value (apply_tree m.tree feats)

/-- Modelled from the spec: `set_entropy` lives in the compiled extension
module `milk/supervised/_tree` whose source is not part of this repository
snapshot.  Per the spec, `entropy(L) = -Σ_c p_c log2 p_c` over the class
proportions `p_c` of the label multiset `L`, with an empty label set
contributing `0`. -/
noncomputable def set_entropy (labels : List ℚ) : ℝ :=
  -(labels.dedup.map fun c =>
      ((labels.count c : ℝ) / (labels.length : ℝ)) *
        Real.logb 2 ((labels.count c : ℝ) / (labels.length : ℝ))).sum

/-- Modelled from the spec: `_tree.information_gain` (compiled extension,
source not in this snapshot).  Per the spec, the information gain without
the parent entropy term is
`-[(|L0|/(|L0|+|L1|))·entropy(L0) + (|L1|/(|L0|+|L1|))·entropy(L1)]`. -/
noncomputable def _information_gain (labels0 labels1 : List ℚ) : ℝ :=
  -((labels0.length : ℝ) / ((labels0.length : ℝ) + (labels1.length : ℝ)) *
        set_entropy labels0 +
      (labels1.length : ℝ) / ((labels0.length : ℝ) + (labels1.length : ℝ)) *
        set_entropy labels1)

/-- `information_gain(labels0, labels1, include_entropy=False)` from the
source: adds the parent entropy only on request. -/
noncomputable def information_gain (labels0 labels1 : List ℚ)
    (include_entropy : Bool := false) : ℝ :=
  if include_entropy then
    set_entropy (labels0 ++ labels1) + _information_gain labels0 labels1
  else _information_gain labels0 labels1

/-- `information_gain` packaged as a `Criterion` the way the unweighted
call site `criterion(labels[cur_split], labels[~cur_split])` invokes it
(default `include_entropy=False`). -/
noncomputable def igCriterion : Criterion ℝ := fun l0 l1 _ _ =>
  information_gain l0 l1

/-! Step equations for the fueled recursion. -/

theorem recursiveF_succ {V : Type} [LinearOrderedField V]
    (criterion : Criterion V) (min_split : Nat) (weights : Option (List ℚ))
    (subsample : Option Int) (R : List Bool → List Nat) (fuel : Nat)
    (path : List Bool) (features : List Row) (labels : List ℚ) :
    recursiveF criterion min_split weights subsample R (fuel + 1) path
        features labels =
      if labels.length < min_split then
        some (Tree.Leaf (labels.sum / (labels.length : ℚ))
          (labels.length : ℚ))
      else
        match _split features labels weights criterion subsample (R path) with
        | none =>
            some (Tree.Leaf (labels.sum / (labels.length : ℚ))
              (labels.length : ℚ))
        | some (i, thresh) =>
            match
              recursiveF criterion min_split weights subsample R fuel
                (path ++ [false])
                (applyMask (maskLt features i thresh) features)
                (applyMask (maskLt features i thresh) labels),
              recursiveF criterion min_split weights subsample R fuel
                (path ++ [true])
                (applyMask (notMask (maskLt features i thresh)) features)
                (applyMask (notMask (maskLt features i thresh)) labels) with
            | some left, some right => some (Tree.Node i thresh left right)
            | _, _ => none := rfl

/-! Basic lemmas about masks and mask application. -/

theorem length_maskLt (features : List Row) (i : Nat) (d : ℚ) :
    (maskLt features i d).length = features.length := by
  simp [maskLt]

theorem length_notMask (m : List Bool) : (notMask m).length = m.length := by
  simp [notMask]

theorem true_mem_notMask {m : List Bool} : true ∈ notMask m ↔ false ∈ m := by
  simp [notMask]

theorem true_mem_maskLt {features : List Row} {i : Nat} {d : ℚ} :
    true ∈ maskLt features i d ↔ ∃ r ∈ features, r.getD i 0 < d := by
  simp [maskLt]

theorem false_mem_maskLt {features : List Row} {i : Nat} {d : ℚ} :
    false ∈ maskLt features i d ↔ ∃ r ∈ features, ¬(r.getD i 0 < d) := by
  simp [maskLt]

theorem mem_col {features : List Row} {i : Nat} {y : ℚ} :
    y ∈ col features i ↔ ∃ r ∈ features, r.getD i 0 = y := by
  simp [col]

theorem applyMask_length_le : ∀ (m : List Bool) (l : List α),
    (applyMask m l).length ≤ l.length
  | [], _ => by simp [applyMask]
  | _ :: _, [] => by simp [applyMask]
  | true :: m, x :: l => by
      simpa [applyMask] using applyMask_length_le m l
  | false :: m, x :: l => by
      simpa [applyMask] using Nat.le_succ_of_le (applyMask_length_le m l)

theorem applyMask_length_add : ∀ (m : List Bool) (l : List α),
    m.length = l.length →
    (applyMask m l).length + (applyMask (notMask m) l).length = l.length
  | [], [], _ => by simp [applyMask, notMask]
  | b :: m, x :: l, h => by
      have ih := applyMask_length_add m l (by simpa using h)
      cases b <;> simp [applyMask, notMask] at ih ⊢ <;> omega

theorem applyMask_length_congr : ∀ (m : List Bool) (l₁ : List α) (l₂ : List β),
    m.length = l₁.length → m.length = l₂.length →
    (applyMask m l₁).length = (applyMask m l₂).length
  | [], [], [], _, _ => rfl
  | b :: m, x :: l₁, y :: l₂, h₁, h₂ => by
      have ih := applyMask_length_congr m l₁ l₂ (by simpa using h₁)
        (by simpa using h₂)
      cases b <;> simp [applyMask, ih]

theorem applyMask_length_pos : ∀ (m : List Bool) (l : List α),
    m.length = l.length → true ∈ m → 1 ≤ (applyMask m l).length
  | b :: m, x :: l, h, hm => by
      cases b
      · have : true ∈ m := by simpa using hm
        simpa [applyMask] using applyMask_length_pos m l (by simpa using h) this
      · simp [applyMask]

theorem applyMask_length_lt : ∀ (m : List Bool) (l : List α),
    m.length = l.length → false ∈ m → (applyMask m l).length < l.length
  | b :: m, x :: l, h, hm => by
      cases b
      · have := applyMask_length_le m l
        simp [applyMask]
        omega
      · have : false ∈ m := by simpa using hm
        have := applyMask_length_lt m l (by simpa using h) this
        simp [applyMask]
        omega

/-! Lemmas about `sortedDistinct`. -/

theorem mem_sortedDistinct {c : List ℚ} {x : ℚ} :
    x ∈ sortedDistinct c ↔ x ∈ c := by
  unfold sortedDistinct
  rw [(List.perm_insertionSort _ c.dedup).mem_iff, List.mem_dedup]

theorem sortedDistinct_nodup (c : List ℚ) : (sortedDistinct c).Nodup := by
  unfold sortedDistinct
  exact (List.perm_insertionSort _ c.dedup).nodup_iff.mpr (List.nodup_dedup c)

theorem sortedDistinct_sorted_lt (c : List ℚ) :
    List.Sorted (· < ·) (sortedDistinct c) := by
  have hle : List.Sorted (· ≤ ·) (sortedDistinct c) :=
    List.sorted_insertionSort _ c.dedup
  have hne : (sortedDistinct c).Pairwise (· ≠ ·) := sortedDistinct_nodup c
  exact (hle.and hne).imp fun h => lt_of_le_of_ne h.1 h.2

theorem mem_sortedDistinct_drop_one {c : List ℚ} {d : ℚ} :
    d ∈ (sortedDistinct c).drop 1 ↔ d ∈ c ∧ ∃ y ∈ c, y < d := by
  rcases hsd : sortedDistinct c with _ | ⟨h, t⟩
  · constructor
    · intro hd; simp at hd
    · rintro ⟨hd, -⟩
      rw [← mem_sortedDistinct, hsd] at hd
      simp at hd
  · have hsorted : List.Sorted (· < ·) (h :: t) := by
      rw [← hsd]; exact sortedDistinct_sorted_lt c
    constructor
    · intro hd
      simp only [List.drop_succ_cons, List.drop_zero] at hd
      have hdc : d ∈ c := by
        rw [← mem_sortedDistinct, hsd]; exact List.mem_cons_of_mem _ hd
      have hhc : h ∈ c := by
        rw [← mem_sortedDistinct, hsd]; exact List.mem_cons_self _ _
      exact ⟨hdc, h, hhc, List.rel_of_sorted_cons hsorted d hd⟩
    · rintro ⟨hdc, y, hyc, hyd⟩
      simp only [List.drop_succ_cons, List.drop_zero]
      have hd : d ∈ h :: t := by rw [← hsd, mem_sortedDistinct]; exact hdc
      have hy : y ∈ h :: t := by rw [← hsd, mem_sortedDistinct]; exact hyc
      rcases List.mem_cons.mp hd with rfl | hd
      · rcases List.mem_cons.mp hy with rfl | hy
        · exact absurd hyd (lt_irrefl _)
        · exact absurd (List.rel_of_sorted_cons hsorted y hy)
            (not_lt_of_lt hyd)
      · assumption

theorem sortedDistinct_drop_one_sorted (c : List ℚ) :
    List.Sorted (· < ·) ((sortedDistinct c).drop 1) :=
  (sortedDistinct_sorted_lt c).sublist (List.drop_sublist 1 _)

theorem sortedDistinct_drop_one_const {c : List ℚ} {a : ℚ}
    (h : ∀ x ∈ c, x = a) : (sortedDistinct c).drop 1 = [] := by
  by_contra hne
  rcases List.exists_mem_of_ne_nil _ hne with ⟨d, hd⟩
  rcases mem_sortedDistinct_drop_one.mp hd with ⟨hdc, y, hyc, hyd⟩
  rw [h d hdc, h y hyc] at hyd
  exact absurd hyd (lt_irrefl _)

/-! Characterisation of the best-candidate fold of `_split`. -/

theorem bestFold_fst_none_iff {V : Type} [LinearOrderedField V]
    (s : Nat × ℚ → V) (remap : Nat × ℚ → Nat × ℚ) (l : List (Nat × ℚ)) :
    ∀ (b : Option (Nat × ℚ)) (v : V),
      (l.foldl (bestStep s remap) (b, v)).1 = none ↔
        (b = none ∧ ∀ y ∈ l, s y ≤ v) := by
  induction l with
  | nil => intro b v; simp
  | cons c l ih =>
    intro b v
    simp only [List.foldl_cons, bestStep]
    by_cases hc : s c > v
    · rw [if_pos hc, ih]
      constructor
      · rintro ⟨h, -⟩; exact absurd h (by simp)
      · rintro ⟨-, hall⟩
        exact absurd hc (not_lt.mpr (hall c (List.mem_cons_self _ _)))
    · rw [if_neg hc, ih]
      constructor
      · rintro ⟨hb, hall⟩
        refine ⟨hb, fun y hy => ?_⟩
        rcases List.mem_cons.mp hy with rfl | hy
        · exact not_lt.mp hc
        · exact hall y hy
      · rintro ⟨hb, hall⟩
        exact ⟨hb, fun y hy => hall y (List.mem_cons_of_mem _ hy)⟩

theorem bestFold_some {V : Type} [LinearOrderedField V]
    (s : Nat × ℚ → V) (remap : Nat × ℚ → Nat × ℚ) (l : List (Nat × ℚ)) :
    ∀ (b : Option (Nat × ℚ)) (v : V) (x : Nat × ℚ),
      (l.foldl (bestStep s remap) (b, v)).1 = some x →
        (b = some x ∧ ∀ y ∈ l, s y ≤ v) ∨
        (∃ l₁ c l₂, l = l₁ ++ c :: l₂ ∧ x = remap c ∧ s c > v ∧
          (∀ y ∈ l₁, s y < s c) ∧ (∀ y ∈ l₂, s y ≤ s c)) := by
  induction l with
  | nil => intro b v x h; exact Or.inl ⟨h, by simp⟩
  | cons c l ih =>
    intro b v x h
    simp only [List.foldl_cons, bestStep] at h
    by_cases hc : s c > v
    · rw [if_pos hc] at h
      rcases ih (some (remap c)) (s c) x h with ⟨hb, hall⟩ |
        ⟨l₁, c', l₂, rfl, hx, hgt, h1, h2⟩
      · refine Or.inr ⟨[], c, l, rfl, (Option.some_inj.mp hb).symm, hc, ?_, hall⟩
        intro y hy; simp at hy
      · refine Or.inr ⟨c :: l₁, c', l₂, rfl, hx, lt_trans hc hgt, ?_, h2⟩
        intro y hy
        rcases List.mem_cons.mp hy with rfl | hy
        · exact hgt
        · exact h1 y hy
    · rw [if_neg hc] at h
      rcases ih b v x h with ⟨hb, hall⟩ |
        ⟨l₁, c', l₂, rfl, hx, hgt, h1, h2⟩
      · refine Or.inl ⟨hb, fun y hy => ?_⟩
        rcases List.mem_cons.mp hy with rfl | hy
        · exact not_lt.mp hc
        · exact hall y hy
      · refine Or.inr ⟨c :: l₁, c', l₂, rfl, hx, hgt, ?_, h2⟩
        intro y hy
        rcases List.mem_cons.mp hy with rfl | hy
        · exact lt_of_le_of_lt (not_lt.mp hc) hgt
        · exact h1 y hy

/-! Characterisation of `_split`. -/

theorem mem_splitCandidates {features : List Row} {f : Nat} {c : Nat × ℚ} :
    c ∈ splitCandidates features f ↔
      c.1 < f ∧ c.2 ∈ (sortedDistinct (col features c.1)).drop 1 := by
  unfold splitCandidates
  rcases c with ⟨i, d⟩
  simp only [List.mem_flatMap, List.mem_range, List.mem_map, Prod.mk.injEq]
  constructor
  · rintro ⟨j, hj, d', hd', rfl, rfl⟩
    exact ⟨hj, hd'⟩
  · rintro ⟨hi, hd⟩
    exact ⟨i, hi, d, hd, rfl, rfl⟩

theorem split_none_iff {V : Type} [LinearOrderedField V]
    (features : List Row) (labels : List ℚ) (weights : Option (List ℚ))
    (criterion : Criterion V) (subsample : Option Int) (samples : List Nat) :
    _split features labels weights criterion subsample samples = none ↔
      ∀ c ∈ splitCandidates (effFeatures subsample samples features)
          (effF subsample features),
        scoreOf (effFeatures subsample samples features) labels weights
          criterion c ≤ (-1 : V) := by
  unfold _split
  rw [bestFold_fst_none_iff]
  simp

theorem split_some_char {V : Type} [LinearOrderedField V]
    (features : List Row) (labels : List ℚ) (weights : Option (List ℚ))
    (criterion : Criterion V) (subsample : Option Int) (samples : List Nat)
    (x : Nat × ℚ)
    (h : _split features labels weights criterion subsample samples = some x) :
    ∃ l₁ c l₂,
      splitCandidates (effFeatures subsample samples features)
          (effF subsample features) = l₁ ++ c :: l₂ ∧
      x = remapIdx subsample samples c ∧
      scoreOf (effFeatures subsample samples features) labels weights
          criterion c > (-1 : V) ∧
      (∀ y ∈ l₁,
        scoreOf (effFeatures subsample samples features) labels weights
            criterion y <
          scoreOf (effFeatures subsample samples features) labels weights
            criterion c) ∧
      (∀ y ∈ l₂,
        scoreOf (effFeatures subsample samples features) labels weights
            criterion y ≤
          scoreOf (effFeatures subsample samples features) labels weights
            criterion c) := by
  unfold _split at h
  rcases bestFold_some _ _ _ _ _ _ h with ⟨hb, -⟩ | hchar
  · exact absurd hb (by simp)
  · exact hchar

theorem getD_map_of_lt {l : List Nat} {g : Nat → ℚ} {k : Nat}
    (hk : k < l.length) :
    (l.map g).getD k 0 = g (l.get ⟨k, hk⟩) := by
  rw [List.getD_eq_getElem?_getD, List.getElem?_map,
    List.getElem?_eq_getElem hk]
  simp

theorem getD_map_of_ge {l : List Nat} {g : Nat → ℚ} {k : Nat}
    (hk : l.length ≤ k) : (l.map g).getD k 0 = 0 := by
  rw [List.getD_eq_getElem?_getD, List.getElem?_map,
    List.getElem?_eq_none (by simpa using hk)]
  rfl

theorem col_effFeatures_of_lt {s : Int} {samples : List Nat}
    {features : List Row} {k : Nat} (hk : k < samples.length) :
    col (effFeatures (some s) samples features) k =
      col features (samples.get ⟨k, hk⟩) := by
  unfold col effFeatures
  rw [List.map_map]
  apply List.map_congr_left
  intro r hr
  exact getD_map_of_lt hk

theorem col_effFeatures_of_ge {s : Int} {samples : List Nat}
    {features : List Row} {k : Nat} (hk : samples.length ≤ k) :
    ∀ x ∈ col (effFeatures (some s) samples features) k, x = 0 := by
  intro x hx
  rcases mem_col.mp hx with ⟨r, hr, hrx⟩
  rcases List.mem_map.mp hr with ⟨r₀, hr₀, rfl⟩
  rw [← hrx]
  exact getD_map_of_ge hk

/-- If `_split` returns `(i, d)`, then `d` is one of the distinct values of
column `i` of the ORIGINAL feature matrix other than that column's
smallest value.  In the subsampled case this uses that the returned index
is translated back through `samples`. -/
theorem split_some_col {V : Type} [LinearOrderedField V]
    (features : List Row) (labels : List ℚ) (weights : Option (List ℚ))
    (criterion : Criterion V) (subsample : Option Int) (samples : List Nat)
    (i : Nat) (d : ℚ)
    (h : _split features labels weights criterion subsample samples =
      some (i, d)) :
    d ∈ (sortedDistinct (col features i)).drop 1 := by
  rcases split_some_char features labels weights criterion subsample samples
      _ h with ⟨l₁, c, l₂, hcands, hx, -, -, -⟩
  have hc : c ∈ splitCandidates (effFeatures subsample samples features)
      (effF subsample features) := by
    rw [hcands]; exact List.mem_append_right _ (List.mem_cons_self _ _)
  rcases mem_splitCandidates.mp hc with ⟨-, hd⟩
  rcases subsample with _ | s
  · simp only [remapIdx] at hx
    rcases hx with ⟨rfl, rfl⟩
    simpa [effFeatures] using hd
  · simp only [remapIdx, Prod.mk.injEq] at hx
    rcases hx with ⟨hi, rfl⟩
    by_cases hlen : c.1 < samples.length
    · rw [col_effFeatures_of_lt hlen] at hd
      have : samples.getD c.1 0 = samples.get ⟨c.1, hlen⟩ := by
        rw [List.getD_eq_getElem?_getD, List.getElem?_eq_getElem hlen]
        rfl
      rw [hi, this]
      exact hd
    · exfalso
      have hconst := @col_effFeatures_of_ge s samples features c.1
        (not_lt.mp hlen)
      rw [sortedDistinct_drop_one_const hconst] at hd
      simp at hd

/-! Partition sizes and termination of the recursion. -/

theorem split_some_mask {V : Type} [LinearOrderedField V]
    (features : List Row) (labels : List ℚ) (weights : Option (List ℚ))
    (criterion : Criterion V) (subsample : Option Int) (samples : List Nat)
    (i : Nat) (d : ℚ)
    (h : _split features labels weights criterion subsample samples =
      some (i, d)) :
    true ∈ maskLt features i d ∧ false ∈ maskLt features i d := by
  have hd := split_some_col features labels weights criterion subsample
    samples i d h
  rcases mem_sortedDistinct_drop_one.mp hd with ⟨hdc, y, hyc, hyd⟩
  constructor
  · rcases mem_col.mp hyc with ⟨r, hr, hry⟩
    exact true_mem_maskLt.mpr ⟨r, hr, by rw [hry]; exact hyd⟩
  · rcases mem_col.mp hdc with ⟨r, hr, hrd⟩
    exact false_mem_maskLt.mpr ⟨r, hr, by rw [hrd]; exact lt_irrefl d⟩

theorem split_some_partition {V : Type} [LinearOrderedField V]
    (features : List Row) (labels : List ℚ) (weights : Option (List ℚ))
    (criterion : Criterion V) (subsample : Option Int) (samples : List Nat)
    (i : Nat) (d : ℚ) (hlen : features.length = labels.length)
    (h : _split features labels weights criterion subsample samples =
      some (i, d)) :
    (1 ≤ (applyMask (maskLt features i d) labels).length ∧
      (applyMask (maskLt features i d) labels).length < labels.length) ∧
    (1 ≤ (applyMask (notMask (maskLt features i d)) labels).length ∧
      (applyMask (notMask (maskLt features i d)) labels).length <
        labels.length) := by
  rcases split_some_mask features labels weights criterion subsample samples
    i d h with ⟨ht, hf⟩
  have hm : (maskLt features i d).length = labels.length := by
    rw [length_maskLt, hlen]
  have hnm : (notMask (maskLt features i d)).length = labels.length := by
    rw [length_notMask, hm]
  have hadd := applyMask_length_add (maskLt features i d) labels hm
  have hpos := applyMask_length_pos _ labels hm ht
  have hnpos := applyMask_length_pos _ labels hnm (true_mem_notMask.mpr hf)
  exact ⟨⟨hpos, by omega⟩, ⟨hnpos, by omega⟩⟩

theorem split_empty {V : Type} [LinearOrderedField V] (labels : List ℚ)
    (weights : Option (List ℚ)) (criterion : Criterion V)
    (subsample : Option Int) (samples : List Nat) :
    _split ([] : List Row) labels weights criterion subsample samples =
      none := by
  rw [split_none_iff]
  intro c hc
  rcases mem_splitCandidates.mp hc with ⟨-, hd⟩
  exfalso
  have hcol : col (effFeatures subsample samples ([] : List Row)) c.1 = [] := by
    rcases subsample with _ | s <;> simp [effFeatures, col]
  rw [hcol] at hd
  simp [sortedDistinct] at hd

/-- Fuel stability and totality of the recursion: any fuel strictly larger
than the number of samples computes the same result, and that result is a
tree (`isSome`). -/
theorem recursiveF_stable {V : Type} [LinearOrderedField V]
    (criterion : Criterion V) (min_split : Nat) (weights : Option (List ℚ))
    (subsample : Option Int) (R : List Bool → List Nat) :
    ∀ (n fuel₁ fuel₂ : Nat) (path : List Bool) (features : List Row)
      (labels : List ℚ),
      features.length = labels.length → labels.length ≤ n →
      n < fuel₁ → n < fuel₂ →
      recursiveF criterion min_split weights subsample R fuel₁ path features
          labels =
        recursiveF criterion min_split weights subsample R fuel₂ path
          features labels ∧
      (recursiveF criterion min_split weights subsample R fuel₁ path features
          labels).isSome := by
  intro n
  induction n with
  | zero =>
    intro fuel₁ fuel₂ path features labels hlen hn h₁ h₂
    obtain ⟨f₁, rfl⟩ : ∃ k, fuel₁ = k + 1 := ⟨fuel₁ - 1, by omega⟩
    obtain ⟨f₂, rfl⟩ : ∃ k, fuel₂ = k + 1 := ⟨fuel₂ - 1, by omega⟩
    have hlab : labels = [] := List.length_eq_zero.mp (by omega)
    have hfeat : features = [] := List.length_eq_zero.mp (by omega)
    subst hlab hfeat
    simp only [recursiveF]
    by_cases hms : (0 : Nat) < min_split
    · simp [hms]
    · simp [hms, split_empty]
  | succ n ih =>
    intro fuel₁ fuel₂ path features labels hlen hn h₁ h₂
    obtain ⟨f₁, rfl⟩ : ∃ k, fuel₁ = k + 1 := ⟨fuel₁ - 1, by omega⟩
    obtain ⟨f₂, rfl⟩ : ∃ k, fuel₂ = k + 1 := ⟨fuel₂ - 1, by omega⟩
    simp only [recursiveF]
    by_cases hms : labels.length < min_split
    · simp [hms]
    · simp only [hms, if_false]
      rcases hsplit : _split features labels weights criterion subsample
          (R path) with _ | ⟨i, d⟩
      · simp
      · dsimp only
        rcases split_some_partition features labels weights criterion
            subsample (R path) i d hlen hsplit with ⟨⟨hl1, hl2⟩, ⟨hr1, hr2⟩⟩
        have hmlen : (maskLt features i d).length = labels.length := by
          rw [length_maskLt, hlen]
        have hleft := ih f₁ f₂ (path ++ [false])
          (applyMask (maskLt features i d) features)
          (applyMask (maskLt features i d) labels)
          (applyMask_length_congr _ _ _ (by rw [length_maskLt]) hmlen)
          (by omega) (by omega) (by omega)
        have hright := ih f₁ f₂ (path ++ [true])
          (applyMask (notMask (maskLt features i d)) features)
          (applyMask (notMask (maskLt features i d)) labels)
          (applyMask_length_congr _ _ _ (by rw [length_notMask, length_maskLt])
            (by rw [length_notMask, hmlen]))
          (by omega) (by omega) (by omega)
        rw [← hleft.1, ← hright.1]
        rcases hL : recursiveF criterion min_split weights subsample R f₁
            (path ++ [false]) (applyMask (maskLt features i d) features)
            (applyMask (maskLt features i d) labels) with _ | tL
        · rw [hL] at hleft; simp at hleft
        · rcases hR : recursiveF criterion min_split weights subsample R f₁
              (path ++ [true])
              (applyMask (notMask (maskLt features i d)) features)
              (applyMask (notMask (maskLt features i d)) labels) with _ | tR
          · rw [hR] at hright; simp at hright
          · simp

/-! Helper lemmas for the remaining claims. -/

theorem effFeatures_none (samples : List Nat) (features : List Row) :
    effFeatures none samples features = features := rfl

theorem badSubsample_eq_false_iff (subsample : Option Int) :
    badSubsample subsample = false ↔ ∀ s : Int, subsample = some s → 0 < s := by
  rcases subsample with _ | s
  · simp [badSubsample]
  · simp only [badSubsample, decide_eq_false_iff_not, not_le,
      Option.some_inj]
    constructor
    · rintro h s' rfl; exact h
    · intro h; exact h s rfl

theorem recursiveF_no_subsample_R {V : Type} [LinearOrderedField V]
    (criterion : Criterion V) (min_split : Nat) (weights : Option (List ℚ))
    (R₁ R₂ : List Bool → List Nat) :
    ∀ (fuel : Nat) (path₁ path₂ : List Bool) (features : List Row)
      (labels : List ℚ),
      recursiveF criterion min_split weights none R₁ fuel path₁ features
          labels =
        recursiveF criterion min_split weights none R₂ fuel path₂ features
          labels := by
  intro fuel
  induction fuel with
  | zero => intro path₁ path₂ features labels; rfl
  | succ fuel ih =>
    intro path₁ path₂ features labels
    rw [recursiveF_succ, recursiveF_succ]
    by_cases hms : labels.length < min_split
    · rw [if_pos hms, if_pos hms]
    · rw [if_neg hms, if_neg hms]
      have hsp : _split features labels weights criterion none (R₂ path₂) =
          _split features labels weights criterion none (R₁ path₁) := rfl
      rw [hsp]
      rcases _split features labels weights criterion none (R₁ path₁) with
        _ | ⟨i, d⟩
      · rfl
      · dsimp only
        rw [ih (path₁ ++ [false]) (path₂ ++ [false]), ih (path₁ ++ [true])
          (path₂ ++ [true])]

theorem maskLt_effFeatures {s : Int} {samples : List Nat}
    {features : List Row} {k : Nat} (hk : k < samples.length) (d : ℚ) :
    maskLt (effFeatures (some s) samples features) k d =
      maskLt features (samples.get ⟨k, hk⟩) d := by
  unfold maskLt effFeatures
  rw [List.map_map]
  apply List.map_congr_left
  intro r hr
  simp only [Function.comp_apply]
  rw [getD_map_of_lt hk]

theorem set_entropy_00 : set_entropy [0, 0] = 0 := by
  have hd : ([0, 0] : List ℚ).dedup = [0] := by decide
  have hc : List.count (0 : ℚ) [0, 0] = 2 := by decide
  unfold set_entropy
  rw [hd]
  simp [hc]

theorem set_entropy_11 : set_entropy [1, 1] = 0 := by
  have hd : ([1, 1] : List ℚ).dedup = [1] := by decide
  have hc : List.count (1 : ℚ) [1, 1] = 2 := by decide
  unfold set_entropy
  rw [hd]
  simp [hc]

theorem information_gain_00_11 : information_gain [0, 0] [1, 1] = 0 := by
  unfold information_gain _information_gain
  rw [set_entropy_00, set_entropy_11]
  norm_num

theorem score_root_ig :
    scoreOf (V := ℝ) ([[0], [0], [1], [1]] : List Row) [0, 0, 1, 1] none
      igCriterion (0, 1) = 0 := by
  unfold scoreOf
  have h1 : applyMask (maskLt [[0], [0], [1], [1]] 0 1)
      ([0, 0, 1, 1] : List ℚ) = [0, 0] := by decide
  have h2 : applyMask (notMask (maskLt [[0], [0], [1], [1]] 0 1))
      ([0, 0, 1, 1] : List ℚ) = [1, 1] := by decide
  dsimp only
  rw [h1, h2]
  unfold igCriterion
  exact information_gain_00_11

theorem split_root_ig (samples : List Nat) :
    _split ([[0], [0], [1], [1]] : List Row) [0, 0, 1, 1] none igCriterion
      none samples = some (0, 1) := by
  unfold _split
  rw [effFeatures_none]
  have hc : splitCandidates (([[0], [0], [1], [1]] : List Row))
      (effF none ([[0], [0], [1], [1]] : List Row)) = [(0, 1)] := by decide
  rw [hc]
  simp only [List.foldl_cons, List.foldl_nil, bestStep]
  rw [score_root_ig]
  norm_num [remapIdx]

theorem split_left_ig (samples : List Nat) :
    _split ([[0], [0]] : List Row) [0, 0] none igCriterion none samples =
      none := by
  unfold _split
  rw [effFeatures_none]
  have hc : splitCandidates (([[0], [0]] : List Row))
      (effF none ([[0], [0]] : List Row)) = [] := by decide
  rw [hc]
  rfl

theorem split_right_ig (samples : List Nat) :
    _split ([[1], [1]] : List Row) [1, 1] none igCriterion none samples =
      none := by
  unfold _split
  rw [effFeatures_none]
  have hc : splitCandidates (([[1], [1]] : List Row))
      (effF none ([[1], [1]] : List Row)) = [] := by decide
  rw [hc]
  rfl

theorem rec_left_ig (ms : Nat) (hms : ms ≤ 2) (R : List Bool → List Nat)
    (path : List Bool) (fuel : Nat) :
    recursiveF igCriterion ms none none R (fuel + 1) path
      ([[0], [0]] : List Row) [0, 0] = some (Tree.Leaf 0 2) := by
  rw [recursiveF_succ]
  rw [if_neg (by simp; omega)]
  rw [split_left_ig (R path)]
  norm_num

theorem rec_right_ig (ms : Nat) (hms : ms ≤ 2) (R : List Bool → List Nat)
    (path : List Bool) (fuel : Nat) :
    recursiveF igCriterion ms none none R (fuel + 1) path
      ([[1], [1]] : List Row) [1, 1] = some (Tree.Leaf 1 2) := by
  rw [recursiveF_succ]
  rw [if_neg (by simp; omega)]
  rw [split_right_ig (R path)]
  norm_num

/-! Claim theorems. -/

/-- Claim C1, counterexample.  With labels `[0, 1]` and weights `[1, 3]`
(sample count below `min_split = 4`, so the builder produces a single
Leaf), the code returns `Leaf(1/2, 2)` — the PLAIN mean and the PLAIN
count — whereas the claim asserts the weighted mean `(1*0 + 3*1)/(1+3) =
3/4` and the weighted count `1 + 3 = 4`. -/
theorem leaf_ignores_weights_cex :
    build_tree ([[0], [0]] : List Row) [0, 1] (fun _ _ _ _ => (0 : ℚ)) 4 none
        (fun _ => []) (some [1, 3]) = Except.ok (Tree.Leaf (1/2) 2) ∧
    (1/2 : ℚ) ≠ (1 * 0 + 3 * 1) / (1 + 3) ∧ (2 : ℚ) ≠ 1 + 3 := by
  refine ⟨?_, by norm_num, by norm_num⟩
  unfold build_tree
  rw [if_neg (by decide), if_neg (by decide)]
  have h : List.length ([0, 1] : List ℚ) + 1 = 2 + 1 := by decide
  rw [h, recursiveF_succ, if_pos (by decide)]
  norm_num

/-- Claim C1, amended: whenever the builder's recursion produces a Leaf on
a subset (subset size below `min_split`, or no usable split), the Leaf's
value is the PLAIN mean `labels.sum / N` of the subset's labels and its
weight is the PLAIN count `N`, whether or not a weight vector was
supplied; weights only enter the criterion evaluation during split
selection. -/
theorem leaf_value_plain_mean {V : Type} [LinearOrderedField V]
    (criterion : Criterion V) (min_split : Nat) (weights : Option (List ℚ))
    (subsample : Option Int) (R : List Bool → List Nat) (fuel : Nat)
    (path : List Bool) (features : List Row) (labels : List ℚ) (v w : ℚ)
    (h : recursiveF criterion min_split weights subsample R fuel path
      features labels = some (Tree.Leaf v w)) :
    v = labels.sum / (labels.length : ℚ) ∧ w = (labels.length : ℚ) := by
  cases fuel with
  | zero => exact absurd h (by simp [recursiveF])
  | succ fuel =>
    rw [recursiveF_succ] at h
    by_cases hms : labels.length < min_split
    · rw [if_pos hms] at h
      simp only [Option.some_inj, Tree.Leaf.injEq] at h
      exact ⟨h.1.symm, h.2.symm⟩
    · rw [if_neg hms] at h
      rcases hsplit : _split features labels weights criterion subsample
          (R path) with _ | ⟨i, d⟩ <;> rw [hsplit] at h
      · simp only [Option.some_inj, Tree.Leaf.injEq] at h
        exact ⟨h.1.symm, h.2.symm⟩
      · dsimp only at h
        rcases hL : recursiveF criterion min_split weights subsample R fuel
            (path ++ [false]) (applyMask (maskLt features i d) features)
            (applyMask (maskLt features i d) labels) with _ | tL <;>
          rcases hR : recursiveF criterion min_split weights subsample R fuel
              (path ++ [true])
              (applyMask (notMask (maskLt features i d)) features)
              (applyMask (notMask (maskLt features i d)) labels) with
            _ | tR <;>
          rw [hL, hR] at h <;> simp at h

/-- Claim C1 witness: a concrete weighted run.  With labels `[0, 1]`,
weights `[1, 3]` and `min_split = 4` the recursion produces
`Leaf(1/2, 2)`, whose value is the plain mean `(0 + 1)/2` and whose weight
is the plain count `2`. -/
theorem leaf_value_plain_mean_witness :
    (1/2 : ℚ) = List.sum [0, 1] / ((List.length ([0, 1] : List ℚ)) : ℚ) ∧
      (2 : ℚ) = ((List.length ([0, 1] : List ℚ)) : ℚ) :=
  leaf_value_plain_mean (fun _ _ _ _ => (0 : ℚ)) 4 (some [1, 3]) none
    (fun _ => []) (2 + 1) [] [[0], [0]] [0, 1] (1/2) 2
    (by rw [recursiveF_succ, if_pos (by decide)]; norm_num)

/-- Claim C2, counterexample.  The feature matrix `[[0], [1]]` has a single
column with TWO distinct values, yet `_split` returns `None` when every
candidate's criterion value fails to exceed the initial best value `-1.`
(here a criterion constantly equal to `-1`, which is also the exact value
`information_gain` takes on any balanced split of binary labels). -/
theorem split_none_despite_distinct_cex :
    _split ([[0], [1]] : List Row) [0, 1] none (fun _ _ _ _ => (-1 : ℚ)) none
        [] = none ∧
    2 ≤ (sortedDistinct (col ([[0], [1]] : List Row) 0)).length ∧
    width ([[0], [1]] : List Row) = 1 := by decide

/-- Claim C2, amended: `_split` returns `None` if and only if every
candidate `(feature, threshold)` pair — one candidate per distinct value of
each candidate column except the smallest, so a degenerate single-valued
column contributes no candidates — has criterion score at most `-1`, the
initial value of the running best; a pair is returned exactly when some
candidate scores strictly above `-1`. -/
theorem split_none_iff_no_score_above_init {V : Type} [LinearOrderedField V]
    (features : List Row) (labels : List ℚ) (weights : Option (List ℚ))
    (criterion : Criterion V) (subsample : Option Int) (samples : List Nat) :
    _split features labels weights criterion subsample samples = none ↔
      ∀ c ∈ splitCandidates (effFeatures subsample samples features)
          (effF subsample features),
        scoreOf (effFeatures subsample samples features) labels weights
          criterion c ≤ (-1 : V) :=
  split_none_iff features labels weights criterion subsample samples

/-- Claim C3: the candidate thresholds for a column are exactly its
distinct values except the smallest, listed in increasing order (first
conjunct, about `sortedDistinct`, whose `drop 1` lists each value of the
column that some other value strictly precedes, sorted strictly
increasingly); and any pair `_split` returns is the remapped first-found
candidate attaining the maximal criterion score: every earlier candidate
in the enumeration scores strictly less, every later candidate scores at
most as much, and the winner scores above the initial best `-1` (running
best replaced only under strictly-greater comparison). -/
theorem split_enumeration_first_argmax {V : Type} [LinearOrderedField V]
    (features : List Row) (labels : List ℚ) (weights : Option (List ℚ))
    (criterion : Criterion V) (subsample : Option Int) (samples : List Nat) :
    (∀ c : List ℚ, List.Sorted (· < ·) ((sortedDistinct c).drop 1) ∧
      ∀ d : ℚ, d ∈ (sortedDistinct c).drop 1 ↔ d ∈ c ∧ ∃ y ∈ c, y < d) ∧
    (∀ x : Nat × ℚ,
      _split features labels weights criterion subsample samples = some x →
      ∃ l₁ c l₂,
        splitCandidates (effFeatures subsample samples features)
            (effF subsample features) = l₁ ++ c :: l₂ ∧
        x = remapIdx subsample samples c ∧
        scoreOf (effFeatures subsample samples features) labels weights
            criterion c > (-1 : V) ∧
        (∀ y ∈ l₁,
          scoreOf (effFeatures subsample samples features) labels weights
              criterion y <
            scoreOf (effFeatures subsample samples features) labels weights
              criterion c) ∧
        (∀ y ∈ l₂,
          scoreOf (effFeatures subsample samples features) labels weights
              criterion y ≤
            scoreOf (effFeatures subsample samples features) labels weights
              criterion c)) :=
  ⟨fun c => ⟨sortedDistinct_drop_one_sorted c,
      fun _ => mem_sortedDistinct_drop_one⟩,
    fun x h =>
      split_some_char features labels weights criterion subsample samples x h⟩

/-- Claim C3 witness: on `[[0], [1]]` with labels `[0, 1]` and a constant
criterion `0`, `_split` returns `(0, 1)` and the theorem instantiates. -/
theorem split_enumeration_first_argmax_witness :
    ∃ l₁ c l₂,
      splitCandidates (effFeatures none [] ([[0], [1]] : List Row))
          (effF none ([[0], [1]] : List Row)) = l₁ ++ c :: l₂ ∧
      ((0, 1) : Nat × ℚ) = remapIdx none [] c ∧
      scoreOf (effFeatures none [] ([[0], [1]] : List Row)) [0, 1] none
          (fun _ _ _ _ => (0 : ℚ)) c > (-1 : ℚ) ∧
      (∀ y ∈ l₁,
        scoreOf (effFeatures none [] ([[0], [1]] : List Row)) [0, 1] none
            (fun _ _ _ _ => (0 : ℚ)) y <
          scoreOf (effFeatures none [] ([[0], [1]] : List Row)) [0, 1] none
            (fun _ _ _ _ => (0 : ℚ)) c) ∧
      (∀ y ∈ l₂,
        scoreOf (effFeatures none [] ([[0], [1]] : List Row)) [0, 1] none
            (fun _ _ _ _ => (0 : ℚ)) y ≤
          scoreOf (effFeatures none [] ([[0], [1]] : List Row)) [0, 1] none
            (fun _ _ _ _ => (0 : ℚ)) c) :=
  (split_enumeration_first_argmax ([[0], [1]] : List Row) [0, 1] none
      (fun _ _ _ _ => (0 : ℚ)) none []).2 (0, 1) (by decide)

/-- Claim C4: on every non-empty input (with matching feature/label
counts) the recursion terminates and yields a tree — all fuels beyond the
sample count compute the same result, and that result is a tree; moreover
whenever `_split` selects `(i, d)` (which is what creates an Internal
node), the threshold `d` actually occurs in column `i` and is not its
minimum, and both the strict-less-than partition and its complement are
non-empty proper subsets, so subset size strictly decreases on every
recursive call. -/
theorem build_recursion_terminates {V : Type} [LinearOrderedField V]
    (criterion : Criterion V) (min_split : Nat) (weights : Option (List ℚ))
    (subsample : Option Int) (R : List Bool → List Nat) (features : List Row)
    (labels : List ℚ) (hlen : features.length = labels.length)
    (hne : 1 ≤ labels.length) :
    (∀ fuel₁ fuel₂ : Nat, labels.length < fuel₁ → labels.length < fuel₂ →
      recursiveF criterion min_split weights subsample R fuel₁ [] features
          labels =
        recursiveF criterion min_split weights subsample R fuel₂ [] features
          labels) ∧
    (recursiveF criterion min_split weights subsample R (labels.length + 1)
        [] features labels).isSome ∧
    (∀ (samples : List Nat) (i : Nat) (d : ℚ),
      _split features labels weights criterion subsample samples =
        some (i, d) →
      (d ∈ col features i ∧ ∃ y ∈ col features i, y < d) ∧
      (1 ≤ (applyMask (maskLt features i d) labels).length ∧
        (applyMask (maskLt features i d) labels).length < labels.length) ∧
      (1 ≤ (applyMask (notMask (maskLt features i d)) labels).length ∧
        (applyMask (notMask (maskLt features i d)) labels).length <
          labels.length)) := by
  refine ⟨?_, ?_, ?_⟩
  · intro fuel₁ fuel₂ h₁ h₂
    exact (recursiveF_stable criterion min_split weights subsample R
      labels.length fuel₁ fuel₂ [] features labels hlen le_rfl h₁ h₂).1
  · exact (recursiveF_stable criterion min_split weights subsample R
      labels.length (labels.length + 1) (labels.length + 1) [] features
      labels hlen le_rfl (by omega) (by omega)).2
  · intro samples i d h
    have hcol := split_some_col features labels weights criterion subsample
      samples i d h
    have hpart := split_some_partition features labels weights criterion
      subsample samples i d hlen h
    exact ⟨mem_sortedDistinct_drop_one.mp hcol, hpart.1, hpart.2⟩

/-- Claim C4 witness: the two-sample input `[[0], [1]]`, `[0, 1]` with
`min_split = 1` terminates with a tree. -/
theorem build_recursion_terminates_witness :
    (recursiveF (V := ℚ) (fun _ _ _ _ => 0) 1 none none (fun _ => [])
      (List.length ([0, 1] : List ℚ) + 1) [] [[0], [1]] [0, 1]).isSome :=
  (build_recursion_terminates (fun _ _ _ _ => (0 : ℚ)) 1 none none
    (fun _ => []) [[0], [1]] [0, 1] (by decide) (by decide)).2.1

/-- Claim C5: `build_tree` reports an input-validation error exactly when
the number of feature rows differs from the number of labels, or when
`subsample` is explicitly provided and is `≤ 0`; in every other case it
returns a complete tree (`Except.ok`). -/
theorem build_tree_ok_iff {V : Type} [LinearOrderedField V]
    (features : List Row) (labels : List ℚ) (criterion : Criterion V)
    (min_split : Nat) (subsample : Option Int) (R : List Bool → List Nat)
    (weights : Option (List ℚ)) :
    (∃ t, build_tree features labels criterion min_split subsample R
        weights = Except.ok t) ↔
      (features.length = labels.length ∧
        ∀ s : Int, subsample = some s → 0 < s) := by
  unfold build_tree
  by_cases hlen : features.length = labels.length
  · rw [if_neg (by simpa using hlen)]
    rcases hsub : badSubsample subsample with _ | _
    · simp only [Bool.false_eq_true, if_false]
      rcases Option.isSome_iff_exists.mp
          (recursiveF_stable criterion min_split weights subsample R
            labels.length (labels.length + 1) (labels.length + 1) [] features
            labels hlen le_rfl (by omega) (by omega)).2 with ⟨t, ht⟩
      rw [ht]
      dsimp only
      constructor
      · intro
        exact ⟨hlen, (badSubsample_eq_false_iff subsample).mp hsub⟩
      · intro
        exact ⟨t, rfl⟩
    · simp only [if_true]
      constructor
      · rintro ⟨t, ht⟩
        simp at ht
      · rintro ⟨-, hP⟩
        have hfalse := (badSubsample_eq_false_iff subsample).mpr hP
        rw [hsub] at hfalse
        cases hfalse
  · rw [if_pos hlen]
    constructor
    · rintro ⟨t, ht⟩
      simp at ht
    · rintro ⟨h, -⟩
      exact absurd h hlen

/-- Claim C6: when the total sample count is below `min_split` (and at
least 1), `build_tree` returns a single Leaf with value the mean of the
labels and weight the sample count (validation permitting). -/
theorem build_small_input_leaf {V : Type} [LinearOrderedField V]
    (features : List Row) (labels : List ℚ) (criterion : Criterion V)
    (min_split : Nat) (subsample : Option Int) (R : List Bool → List Nat)
    (weights : Option (List ℚ))
    (hlen : features.length = labels.length) (hne : 1 ≤ labels.length)
    (hms : labels.length < min_split)
    (hsub : badSubsample subsample = false) :
    build_tree features labels criterion min_split subsample R weights =
      Except.ok (Tree.Leaf (labels.sum / (labels.length : ℚ))
        (labels.length : ℚ)) := by
  unfold build_tree
  rw [if_neg (by simpa using hlen), if_neg (by simp [hsub])]
  rw [recursiveF_succ, if_pos hms]

/-- Claim C6 witness: `labels = [0, 0, 1]` with `min_split = 4` yields
`Leaf(1/3, 3)`. -/
theorem build_small_input_leaf_witness :
    build_tree ([[0], [0], [0]] : List Row) [0, 0, 1]
        (fun _ _ _ _ => (0 : ℚ)) 4 none (fun _ => []) none =
      Except.ok (Tree.Leaf (1/3) 3) := by
  have h := build_small_input_leaf [[0], [0], [0]] [0, 0, 1]
    (fun _ _ _ _ => (0 : ℚ)) 4 none (fun _ => []) none (by decide) (by decide)
    (by decide) (by decide)
  rw [h]
  norm_num

/-- Claim C7: inference is a single root-to-leaf walk — at a Leaf the
stored value is returned, at an Internal node the walk descends left
exactly when the queried feature value is strictly below the threshold —
and with the model's `return_label` flag set, the returned label is `true`
exactly when the reached leaf value is strictly greater than `1/2` (so a
value of exactly `1/2` maps to `false`); with the flag unset the raw value
is returned. -/
theorem apply_tree_walk (t : Tree) (feats : List ℚ) :
    (∀ v w : ℚ, apply_tree (Tree.Leaf v w) feats = v) ∧
    (∀ (i : Nat) (th : ℚ) (l r : Tree),
      apply_tree (Tree.Node i th l r) feats =
        if feats.getD i 0 < th then apply_tree l feats
        else apply_tree r feats) ∧
    tree_model.apply ⟨t, true⟩ feats =
      ApplyResult.label (decide (apply_tree t feats > 1/2)) ∧
    tree_model.apply ⟨t, false⟩ feats =
      ApplyResult.value (apply_tree t feats) ∧
    (tree_model.apply ⟨t, true⟩ feats = ApplyResult.label true ↔
      1/2 < apply_tree t feats) := by
  refine ⟨fun v w => rfl, fun i th l r => rfl, rfl, rfl, ?_⟩
  simp [tree_model.apply]

/-- Claim C8: with subsampling disabled, building is deterministic — the
source of randomness is never consulted, so two runs on the same data
(even with different randomness sources) produce structurally identical
trees, split for split and leaf for leaf. -/
theorem build_tree_deterministic {V : Type} [LinearOrderedField V]
    (features : List Row) (labels : List ℚ) (criterion : Criterion V)
    (min_split : Nat) (weights : Option (List ℚ))
    (R₁ R₂ : List Bool → List Nat) :
    build_tree features labels criterion min_split none R₁ weights =
      build_tree features labels criterion min_split none R₂ weights := by
  unfold build_tree
  rw [recursiveF_no_subsample_R criterion min_split weights R₁ R₂
    (labels.length + 1) [] [] features labels]

/-- Claim C9: on the single-feature, perfectly separable dataset
`features = [[0], [0], [1], [1]]`, `labels = [0, 0, 1, 1]` with the
information-gain criterion, any `min_split ≤ 2` and no subsampling,
`build_tree` produces exactly one Internal node splitting feature `0` at
threshold `1`, with pure leaves of value `0` and `1` (each of weight 2). -/
theorem build_separable_dataset (ms : Nat) (hms : ms ≤ 2)
    (R : List Bool → List Nat) :
    build_tree ([[0], [0], [1], [1]] : List Row) [0, 0, 1, 1] igCriterion ms
        none R none =
      Except.ok (Tree.Node 0 1 (Tree.Leaf 0 2) (Tree.Leaf 1 2)) := by
  unfold build_tree
  rw [if_neg (by decide), if_neg (by decide)]
  rw [recursiveF_succ]
  rw [if_neg (by simp; omega)]
  rw [split_root_ig (R [])]
  dsimp only
  have hfl : applyMask (maskLt [[0], [0], [1], [1]] 0 1)
      ([[0], [0], [1], [1]] : List Row) = [[0], [0]] := by decide
  have hll : applyMask (maskLt [[0], [0], [1], [1]] 0 1)
      ([0, 0, 1, 1] : List ℚ) = [0, 0] := by decide
  have hfr : applyMask (notMask (maskLt [[0], [0], [1], [1]] 0 1))
      ([[0], [0], [1], [1]] : List Row) = [[1], [1]] := by decide
  have hlr : applyMask (notMask (maskLt [[0], [0], [1], [1]] 0 1))
      ([0, 0, 1, 1] : List ℚ) = [1, 1] := by decide
  rw [hfl, hll, hfr, hlr]
  have hlen : List.length ([0, 0, 1, 1] : List ℚ) = 3 + 1 := by decide
  rw [hlen]
  rw [rec_left_ig ms hms R ([] ++ [false]) 3,
    rec_right_ig ms hms R ([] ++ [true]) 3]

/-- Claim C9 witness: the build at `min_split = 2`. -/
theorem build_separable_dataset_witness :
    build_tree ([[0], [0], [1], [1]] : List Row) [0, 0, 1, 1] igCriterion 2
        none (fun _ => []) none =
      Except.ok (Tree.Node 0 1 (Tree.Leaf 0 2) (Tree.Leaf 1 2)) :=
  build_separable_dataset 2 (by norm_num) (fun _ => [])

/-- Claim C10: when subsampling, a pair returned by `_split` carries a
feature index already translated back through the drawn `samples` list:
there is a position `j` in `samples` such that the returned index `i` is
`samples[j]`, the subsampled column `j` that the criterion scored IS the
original column `i`, the strict-less-than partition mask the criterion was
evaluated on equals the mask `features[:, i] < d` the builder partitions
with, the score of the subsampled candidate equals the score of the
original-column candidate, and the threshold `d` is a non-minimal distinct
value of original column `i`. -/
theorem split_subsample_maps_back {V : Type} [LinearOrderedField V]
    (features : List Row) (labels : List ℚ) (weights : Option (List ℚ))
    (criterion : Criterion V) (s : Int) (samples : List Nat) (i : Nat)
    (d : ℚ)
    (h : _split features labels weights criterion (some s) samples =
      some (i, d)) :
    ∃ j, ∃ hj : j < samples.length,
      i = samples.get ⟨j, hj⟩ ∧
      col (effFeatures (some s) samples features) j = col features i ∧
      maskLt (effFeatures (some s) samples features) j d =
        maskLt features i d ∧
      scoreOf (effFeatures (some s) samples features) labels weights
          criterion (j, d) =
        scoreOf features labels weights criterion (i, d) ∧
      d ∈ (sortedDistinct (col features i)).drop 1 := by
  rcases split_some_char features labels weights criterion (some s) samples
      _ h with ⟨l₁, c, l₂, hcands, hx, -, -, -⟩
  have hc : c ∈ splitCandidates (effFeatures (some s) samples features)
      (effF (some s) features) := by
    rw [hcands]
    exact List.mem_append_right _ (List.mem_cons_self _ _)
  rcases mem_splitCandidates.mp hc with ⟨-, hd⟩
  simp only [remapIdx, Prod.mk.injEq] at hx
  rcases hx with ⟨hi, hd2⟩
  by_cases hlt : c.1 < samples.length
  · have hget : samples.getD c.1 0 = samples.get ⟨c.1, hlt⟩ := by
      rw [List.getD_eq_getElem?_getD, List.getElem?_eq_getElem hlt]
      rfl
    have hcol : col (effFeatures (some s) samples features) c.1 =
        col features i := by
      rw [col_effFeatures_of_lt hlt, hi, hget]
    have hmask : maskLt (effFeatures (some s) samples features) c.1 d =
        maskLt features i d := by
      rw [maskLt_effFeatures hlt d, hi, hget]
    refine ⟨c.1, hlt, ?_, hcol, hmask, ?_, ?_⟩
    · rw [hi, hget]
    · unfold scoreOf
      rw [hmask]
    · rw [← hcol, hd2]
      exact hd
  · exfalso
    have hconst := @col_effFeatures_of_ge s samples features c.1
      (not_lt.mp hlt)
    rw [sortedDistinct_drop_one_const hconst] at hd
    simp at hd

/-- Claim C10 witness: `features = [[5, 0], [5, 1]]` with `subsample = 1`
and drawn column list `[1]`: `_split` returns `(1, 1)` and the mapping
properties instantiate. -/
theorem split_subsample_maps_back_witness :
    ∃ j, ∃ hj : j < ([1] : List Nat).length,
      (1 : Nat) = [1].get ⟨j, hj⟩ ∧
      col (effFeatures (some 1) [1] ([[5, 0], [5, 1]] : List Row)) j =
        col ([[5, 0], [5, 1]] : List Row) 1 ∧
      maskLt (effFeatures (some 1) [1] ([[5, 0], [5, 1]] : List Row)) j 1 =
        maskLt ([[5, 0], [5, 1]] : List Row) 1 1 ∧
      scoreOf (effFeatures (some 1) [1] ([[5, 0], [5, 1]] : List Row)) [0, 1]
          none (fun _ _ _ _ => (0 : ℚ)) (j, 1) =
        scoreOf ([[5, 0], [5, 1]] : List Row) [0, 1] none
          (fun _ _ _ _ => (0 : ℚ)) (1, 1) ∧
      (1 : ℚ) ∈ (sortedDistinct (col ([[5, 0], [5, 1]] : List Row) 1)).drop
        1 :=
  split_subsample_maps_back [[5, 0], [5, 1]] [0, 1] none
    (fun _ _ _ _ => (0 : ℚ)) 1 [1] 1 1 (by decide)

end MilkTree
